import Mathlib

/-!
Shallow embedding of `src/cattrs/disambiguators.py`: union disambiguation
for mappings.  The source exposes two builders,
`create_uniq_field_dis_func` (structural strategy) and
`create_type_name_field_dis_func` (tag-field strategy), each returning a
resolver closure over immutable lookup data.
-/

namespace Cattrs

/-- One attribute of an attrs class: its name and whether it carries a
default value (`default is NOTHING` in the source means no default). -/
structure Field where
  fname : String
  hasDefault : Bool
deriving DecidableEq, Repr

/-- A candidate class (schema descriptor): an opaque identity handle `sid`,
the display name `dname` (Python `__name__`), and its attribute list. -/
structure Schema where
  sid : Nat
  dname : String
  sfields : List Field
deriving DecidableEq, Repr

/-- `set(at.name for at in fields(cl))`: the set of attribute names of a
class, modelled as a deduplicated list. -/
def attrs (s : Schema) : List String :=
  (s.sfields.map Field.fname).dedup

/-- `len` of the attribute-name set, the sort key of the builder. -/
def asize (s : Schema) : Nat :=
  (attrs s).length

/-- `getattr(cl_fields, attr_name).default is NOTHING` negated: whether the
named attribute of the class has a default value.  (In the source the name
is always one of the class's attributes, so the `none` branch is
unreachable; it is mapped to `true`, i.e. unusable.) -/
def fieldHasDefault (s : Schema) (a : String) : Bool :=
  match s.sfields.find? (fun f => f.fname == a) with
  | some f => f.hasDefault
  | none => true

/-- Membership in a list of names, modelling Python `in` on a set. -/
def memb (a : String) : List String → Bool
  | [] => false
  | x :: xs => (x == a) || memb a xs

/-- `reduce(or_, (c_a[1] for c_a in other_classes))`: union of the
attribute-name sets of a list of classes. -/
def unionAttrs (l : List Schema) : List String :=
  l.foldr (fun s acc => attrs s ++ acc) []

/-- `uniq = cl_reqs - other_reqs`: the attribute names of `c` not occurring
in any class of `rest`. -/
def uniqFields (c : Schema) (rest : List Schema) : List String :=
  (attrs c).filter (fun a => !(memb a (unionAttrs rest)))

/-- One step of the stable insertion sort realising
`cls_and_attrs.sort(key=lambda c_a: -len(c_a[1]))`: insert `x` (which came
earlier in the input) before the first element of strictly smaller or equal
size is irrelevant -- `x` goes before `y` exactly when `asize y ≤ asize x`,
so ties keep the input order. -/
def insertDesc (x : Schema) : List Schema → List Schema
  | [] => [x]
  | y :: ys => if asize y ≤ asize x then x :: y :: ys else y :: insertDesc x ys

/-- Stable sort by descending attribute-set size, the processing order of
the structural builder. -/
def sortByLenDesc : List Schema → List Schema
  | [] => []
  | x :: xs => insertDesc x (sortByLenDesc xs)

/-- Build-time failure taxonomy of the structural builder (the source
raises `ValueError` with distinguishing messages). -/
inductive BuildError
  | insufficientCandidates
  | multipleEmptySchemas
  | noUniqueField (sid : Nat)
  | noUniqueRequiredField (sid : Nat)
deriving DecidableEq, Repr

/-- Resolve-time failure taxonomy (the source raises `ValueError`). -/
inductive ResolveError
  | notAMapping
  | missingDiscriminator
deriving DecidableEq, Repr

/-- A value stored in an input mapping.  The structural resolver never
reads values; the tag-field resolver compares the discriminator value
against class display names (strings), so only stringness matters. -/
inductive Val
  | str (s : String)
  | int (n : Int)
deriving DecidableEq, Repr

/-- A runtime input: either map-shaped (an association list, keys read
first-occurrence) or not a mapping at all. -/
inductive Input
  | map (m : List (String × Val))
  | notMap (x : Nat)
deriving DecidableEq, Repr

/-- `k in data` for a map-shaped input. -/
def hasKey (m : List (String × Val)) (k : String) : Bool :=
  match m with
  | [] => false
  | kv :: rest => (kv.1 == k) || hasKey rest k

/-- The walk of the structural builder over the sorted class list: for each
class with a nonempty remainder, compute its unique attributes, reject with
`noUniqueField` when there are none, pick an attribute without a default
(rejecting with `noUniqueRequiredField` when all carry defaults) and record
it; the final class becomes the fallback. -/
def buildTable : List Schema → Except BuildError (List (String × Schema) × Schema)
  | [] => .error .insufficientCandidates
  | c :: rest =>
      if rest.isEmpty then .ok ([], c)
      else
        let uniq := uniqFields c rest
        if uniq.isEmpty then .error (.noUniqueField c.sid)
        else
          match uniq.find? (fun a => !(fieldHasDefault c a)) with
          | none => .error (.noUniqueRequiredField c.sid)
          | some a =>
              match buildTable rest with
              | .error e => .error e
              | .ok (tbl, fb) => .ok ((a, c) :: tbl, fb)

/-- `create_uniq_field_dis_func`: reject fewer than two classes, reject
more than one attribute-less class, then walk the classes sorted by
descending attribute-set size, producing the disambiguation table and the
fallback the returned closure captures. -/
def create_uniq_field_dis_func (classes : List Schema) :
    Except BuildError (List (String × Schema) × Schema) :=
  if classes.length < 2 then .error .insufficientCandidates
  else if 1 < (classes.filter (fun s => (attrs s).isEmpty)).length then
    .error .multipleEmptySchemas
  else buildTable (sortByLenDesc classes)

/-- The structural resolver closure `dis_func`: reject non-mappings, scan
the table in insertion order and return the class of the first entry whose
attribute name is a key of the input, else the fallback. -/
def dis_func (tbl : List (String × Schema)) (fb : Schema) : Input → Except ResolveError Schema
  | .notMap _ => .error .notAMapping
  | .map m =>
      match tbl.find? (fun e => hasKey m e.1) with
      | some e => .ok e.2
      | none => .ok fb

/-- `names_to_cl = {c.__name__: c for c in classes}` as an association
list; a duplicated display name is resolved like the Python dict, the
later class winning (see `dictLookup`). -/
def namesToCl (classes : List Schema) : List (String × Schema) :=
  classes.map (fun c => (c.dname, c))

/-- Dict lookup on the association list: the value of the last binding of
the key, mirroring dict-comprehension overwrite semantics. -/
def dictLookup (l : List (String × Schema)) (k : String) : Option Schema :=
  (l.reverse.find? (fun e => e.1 == k)).map Prod.snd

/-- The tag-field resolver closure: reject non-mappings, reject inputs
missing the discriminator key, look the discriminator value up in the name
table, falling back to the first class on an unknown (or non-string)
value. -/
def tag_dis_func (classes : List Schema) (fb : Schema) (type_name_key : String) :
    Input → Except ResolveError Schema
  | .notMap _ => .error .notAMapping
  | .map m =>
      match m.find? (fun kv => kv.1 == type_name_key) with
      | none => .error .missingDiscriminator
      | some kv =>
          match kv.2 with
          | .str s =>
              match dictLookup (namesToCl classes) s with
              | some c => .ok c
              | none => .ok fb
          | _ => .ok fb

/-- `create_type_name_field_dis_func`: build the name table and capture the
first class as fallback.  With no classes at all the source would fail
indexing `classes[0]`, modelled by `none`. -/
def create_type_name_field_dis_func (classes : List Schema) (type_name_key : String) :
    Option (Input → Except ResolveError Schema) :=
  match classes with
  | [] => none
  | c0 :: _ => some (tag_dis_func classes c0 type_name_key)

/-- Attribute names without a default value, the "required" fields of a
schema in the spec's vocabulary. -/
def requiredNames (s : Schema) : List String :=
  ((s.sfields.filter (fun f => !f.hasDefault)).map Field.fname).dedup

instance {ε α : Type} [DecidableEq ε] [DecidableEq α] : DecidableEq (Except ε α) := fun x y =>
  match x, y with
  | .ok a, .ok b =>
      if h : a = b then .isTrue (by rw [h]) else .isFalse (by intro hc; cases hc; exact h rfl)
  | .ok _, .error _ => .isFalse (by intro hc; cases hc)
  | .error _, .ok _ => .isFalse (by intro hc; cases hc)
  | .error e, .error f =>
      if h : e = f then .isTrue (by rw [h]) else .isFalse (by intro hc; cases hc; exact h rfl)

/-! ### Basic membership lemmas -/

theorem memb_iff {a : String} {l : List String} : memb a l = true ↔ a ∈ l := by
  induction l with
  | nil => simp [memb]
  | cons x xs ih =>
      simp only [memb, Bool.or_eq_true, beq_iff_eq, ih, List.mem_cons]
      constructor
      · rintro (h | h)
        · exact Or.inl h.symm
        · exact Or.inr h
      · rintro (rfl | h)
        · exact Or.inl rfl
        · exact Or.inr h

theorem hasKey_iff {m : List (String × Val)} {k : String} :
    hasKey m k = true ↔ ∃ kv ∈ m, kv.1 = k := by
  induction m with
  | nil => simp [hasKey]
  | cons kv rest ih =>
      simp [hasKey, ih, Bool.or_eq_true, beq_iff_eq, List.mem_cons]

theorem mem_unionAttrs {a : String} {l : List Schema} :
    a ∈ unionAttrs l ↔ ∃ s ∈ l, a ∈ attrs s := by
  induction l with
  | nil => simp [unionAttrs]
  | cons x xs ih =>
      simp only [unionAttrs, List.foldr_cons, List.mem_append] at *
      constructor
      · rintro (h | h)
        · exact ⟨x, List.mem_cons_self x xs, h⟩
        · obtain ⟨s, hs, ha⟩ := ih.mp h
          exact ⟨s, List.mem_cons_of_mem x hs, ha⟩
      · rintro ⟨s, hs, ha⟩
        rcases List.mem_cons.mp hs with rfl | hs
        · exact Or.inl ha
        · exact Or.inr (ih.mpr ⟨s, hs, ha⟩)

theorem mem_uniqFields {a : String} {c : Schema} {rest : List Schema} :
    a ∈ uniqFields c rest ↔ a ∈ attrs c ∧ ∀ s ∈ rest, a ∉ attrs s := by
  rw [uniqFields, List.mem_filter]
  constructor
  · rintro ⟨hc, hm⟩
    rw [Bool.not_eq_true'] at hm
    refine ⟨hc, fun s hs ha => ?_⟩
    rw [memb_iff.mpr (mem_unionAttrs.mpr ⟨s, hs, ha⟩)] at hm
    exact Bool.noConfusion hm
  · rintro ⟨hc, hm⟩
    refine ⟨hc, ?_⟩
    rw [Bool.not_eq_true']
    cases hmb : memb a (unionAttrs rest) with
    | false => rfl
    | true =>
        obtain ⟨s, hs, ha⟩ := mem_unionAttrs.mp (memb_iff.mp hmb)
        exact absurd ha (hm s hs)

/-! ### Sort lemmas: permutation, sortedness, stability -/

theorem insertDesc_perm (x : Schema) (l : List Schema) :
    List.Perm (insertDesc x l) (x :: l) := by
  induction l with
  | nil => simp [insertDesc]
  | cons y ys ih =>
      by_cases h : asize y ≤ asize x
      · simp [insertDesc, h]
      · simp only [insertDesc, if_neg h]
        exact (ih.cons y).trans (List.Perm.swap x y ys)

theorem sortByLenDesc_perm (l : List Schema) :
    List.Perm (sortByLenDesc l) l := by
  induction l with
  | nil => simp [sortByLenDesc]
  | cons x xs ih =>
      exact (insertDesc_perm x (sortByLenDesc xs)).trans (ih.cons x)

theorem insertDesc_pairwise {x : Schema} {l : List Schema}
    (h : List.Pairwise (fun a b => asize b ≤ asize a) l) :
    List.Pairwise (fun a b => asize b ≤ asize a) (insertDesc x l) := by
  induction l with
  | nil => simp [insertDesc]
  | cons y ys ih =>
      rcases List.pairwise_cons.mp h with ⟨hy, hys⟩
      by_cases hle : asize y ≤ asize x
      · simp only [insertDesc, if_pos hle]
        refine List.pairwise_cons.mpr ⟨?_, h⟩
        intro z hz
        rcases List.mem_cons.mp hz with rfl | hz
        · exact hle
        · exact le_trans (hy z hz) hle
      · simp only [insertDesc, if_neg hle]
        refine List.pairwise_cons.mpr ⟨?_, ih hys⟩
        intro z hz
        have hz' := (insertDesc_perm x ys).mem_iff.mp hz
        rcases List.mem_cons.mp hz' with rfl | hz'
        · exact le_of_lt (lt_of_not_le hle)
        · exact hy z hz'

theorem sortByLenDesc_pairwise (l : List Schema) :
    List.Pairwise (fun a b => asize b ≤ asize a) (sortByLenDesc l) := by
  induction l with
  | nil => simp [sortByLenDesc]
  | cons x xs ih => exact insertDesc_pairwise ih

theorem filter_insertDesc (x : Schema) (l : List Schema) (k : Nat) :
    (insertDesc x l).filter (fun s => asize s == k) =
      (x :: l).filter (fun s => asize s == k) := by
  induction l with
  | nil => rfl
  | cons y ys ih =>
      by_cases hle : asize y ≤ asize x
      · simp [insertDesc, hle]
      · have hlt : asize x < asize y := lt_of_not_le hle
        simp only [insertDesc, if_neg hle]
        by_cases hx : asize x = k
        · have hy : (asize y == k) = false := by
            simp only [beq_eq_false_iff_ne, ne_eq]
            omega
          simp only [List.filter_cons, hy, beq_iff_eq, hx, if_pos, ih]
          simp [List.filter_cons, hy, hx]
        · have hx' : (asize x == k) = false := by
            simp only [beq_eq_false_iff_ne, ne_eq]; exact hx
          simp only [List.filter_cons, ih]
          simp [List.filter_cons, hx']


/-! ### Walk lemmas for the structural builder -/

theorem buildTable_cons (c y : Schema) (ys : List Schema) :
    buildTable (c :: y :: ys) =
      (if (uniqFields c (y :: ys)).isEmpty then .error (.noUniqueField c.sid)
       else
         match (uniqFields c (y :: ys)).find? (fun a => !(fieldHasDefault c a)) with
         | none => .error (.noUniqueRequiredField c.sid)
         | some a =>
             match buildTable (y :: ys) with
             | .error e => .error e
             | .ok (tbl, fb) => .ok ((a, c) :: tbl, fb)) := rfl

theorem buildTable_cons' (c : Schema) (rest : List Schema) (h : rest ≠ []) :
    buildTable (c :: rest) =
      (if (uniqFields c rest).isEmpty then .error (.noUniqueField c.sid)
       else
         match (uniqFields c rest).find? (fun a => !(fieldHasDefault c a)) with
         | none => .error (.noUniqueRequiredField c.sid)
         | some a =>
             match buildTable rest with
             | .error e => .error e
             | .ok (tbl, fb) => .ok ((a, c) :: tbl, fb)) := by
  cases rest with
  | nil => exact absurd rfl h
  | cons y ys => rw [buildTable_cons]

/-- Core correctness of the table walk: whenever it succeeds, resolving any
mapping whose key set is exactly the attribute-name set of one of the
walked classes yields that class. -/
theorem buildTable_resolve_self :
    ∀ (l : List Schema) (tbl : List (String × Schema)) (fb : Schema),
      buildTable l = .ok (tbl, fb) → ∀ c ∈ l,
        ∀ m : List (String × Val), (∀ k, hasKey m k = memb k (attrs c)) →
          dis_func tbl fb (.map m) = .ok c := by
  intro l
  induction l with
  | nil => intro tbl fb hb; exact Except.noConfusion hb
  | cons x rest ih =>
      intro tbl fb hb c hc m hm
      cases rest with
      | nil =>
          injection hb with hb
          injection hb with h1 h2
          subst h1; subst h2
          rcases List.mem_cons.mp hc with rfl | hc
          · rfl
          · exact absurd hc (List.not_mem_nil c)
      | cons y ys =>
          rw [buildTable_cons] at hb
          by_cases hemp : (uniqFields x (y :: ys)).isEmpty = true
          · rw [if_pos hemp] at hb; exact Except.noConfusion hb
          · rw [if_neg hemp] at hb
            cases hfind : (uniqFields x (y :: ys)).find? (fun a => !(fieldHasDefault x a)) with
            | none => rw [hfind] at hb; exact Except.noConfusion hb
            | some a =>
                rw [hfind] at hb
                cases hbt : buildTable (y :: ys) with
                | error e => rw [hbt] at hb; exact Except.noConfusion hb
                | ok p =>
                    obtain ⟨tbl', fb'⟩ := p
                    rw [hbt] at hb
                    injection hb with hb
                    injection hb with h1 h2
                    subst h1; subst h2
                    have ha := mem_uniqFields.mp (List.mem_of_find?_eq_some hfind)
                    rcases List.mem_cons.mp hc with rfl | hc'
                    · have hk : hasKey m a = true := by
                        rw [hm a]; exact memb_iff.mpr ha.1
                      simp only [dis_func]
                      rw [List.find?_cons_of_pos _ (by simpa using hk)]
                    · have hnc : a ∉ attrs c := ha.2 c hc'
                      have hk : hasKey m a = false := by
                        rw [hm a]
                        cases hmb : memb a (attrs c) with
                        | false => rfl
                        | true => exact absurd (memb_iff.mp hmb) hnc
                      have htail := ih tbl' fb' hbt c hc' m hm
                      simp only [dis_func] at htail ⊢
                      rw [List.find?_cons_of_neg _ (by simpa using hk)]
                      exact htail

/-- Whenever the walk succeeds, the fallback is the last walked class. -/
theorem buildTable_fallback :
    ∀ (l : List Schema) (tbl : List (String × Schema)) (fb : Schema),
      buildTable l = .ok (tbl, fb) → l.getLast? = some fb := by
  intro l
  induction l with
  | nil => intro tbl fb hb; exact Except.noConfusion hb
  | cons x rest ih =>
      intro tbl fb hb
      cases rest with
      | nil =>
          injection hb with hb
          injection hb with h1 h2
          subst h2; rfl
      | cons y ys =>
          rw [buildTable_cons] at hb
          by_cases hemp : (uniqFields x (y :: ys)).isEmpty = true
          · rw [if_pos hemp] at hb; exact Except.noConfusion hb
          · rw [if_neg hemp] at hb
            cases hfind : (uniqFields x (y :: ys)).find? (fun a => !(fieldHasDefault x a)) with
            | none => rw [hfind] at hb; exact Except.noConfusion hb
            | some a =>
                rw [hfind] at hb
                cases hbt : buildTable (y :: ys) with
                | error e => rw [hbt] at hb; exact Except.noConfusion hb
                | ok p =>
                    obtain ⟨tbl', fb'⟩ := p
                    rw [hbt] at hb
                    injection hb with hb
                    injection hb with h1 h2
                    subst h2
                    rw [List.getLast?_cons_cons]
                    exact ih tbl' fb' hbt

/-- The walk never reports the empty-schema error: that check lives in the
wrapper, before the walk. -/
theorem buildTable_ne_multipleEmpty :
    ∀ l : List Schema, buildTable l ≠ .error .multipleEmptySchemas := by
  intro l
  induction l with
  | nil => intro h; injection h with h; exact BuildError.noConfusion h
  | cons x rest ih =>
      cases rest with
      | nil => intro h; exact Except.noConfusion h
      | cons y ys =>
          rw [buildTable_cons]
          by_cases hemp : (uniqFields x (y :: ys)).isEmpty = true
          · rw [if_pos hemp]; intro h; injection h with h; exact BuildError.noConfusion h
          · rw [if_neg hemp]
            cases hfind : (uniqFields x (y :: ys)).find? (fun a => !(fieldHasDefault x a)) with
            | none => intro h; injection h with h; exact BuildError.noConfusion h
            | some a =>
                cases hbt : buildTable (y :: ys) with
                | error e =>
                    intro h; injection h with h; subst h
                    exact ih hbt
                | ok p => obtain ⟨tbl', fb'⟩ := p; intro h; exact Except.noConfusion h

/-- With duplicate-free field names, looking an attribute of a class up by
name finds exactly that attribute. -/
theorem find_field_of_nodup :
    ∀ (L : List Field) (fl : Field), (L.map Field.fname).Nodup → fl ∈ L →
      L.find? (fun f => f.fname == fl.fname) = some fl := by
  intro L
  induction L with
  | nil => intro fl _ hf; exact absurd hf (List.not_mem_nil fl)
  | cons g gs ih =>
      intro fl hnd hf
      rw [List.map_cons] at hnd
      rcases List.nodup_cons.mp hnd with ⟨hg, hnd'⟩
      rcases List.mem_cons.mp hf with rfl | hf'
      · rw [List.find?_cons_of_pos _ (by simp)]
      · have hne : (g.fname == fl.fname) = false := by
          rw [beq_eq_false_iff_ne]
          intro heq
          exact hg (heq ▸ List.mem_map_of_mem Field.fname hf')
        rw [List.find?_cons_of_neg _ (by simp [hne]), ih fl hnd' hf']

theorem fieldHasDefault_of_mem {s : Schema} {fl : Field}
    (hnd : (s.sfields.map Field.fname).Nodup) (hf : fl ∈ s.sfields) :
    fieldHasDefault s fl.fname = fl.hasDefault := by
  rw [fieldHasDefault, find_field_of_nodup s.sfields fl hnd hf]

/-- Success of the walk for classes with pairwise-disjoint attribute sets,
at most one of them empty, a required attribute in each nonempty one, and
duplicate-free names, walked in descending-size order. -/
theorem buildTable_success :
    ∀ l : List Schema,
      l ≠ [] →
      List.Pairwise (fun a b => asize b ≤ asize a) l →
      List.Pairwise (fun a b => ∀ x ∈ attrs a, x ∉ attrs b) l →
      (l.filter (fun s => (attrs s).isEmpty)).length ≤ 1 →
      (∀ c ∈ l, (c.sfields.map Field.fname).Nodup) →
      (∀ c ∈ l, attrs c ≠ [] → ∃ fl ∈ c.sfields, fl.hasDefault = false) →
      ∃ tbl fb, buildTable l = .ok (tbl, fb) := by
  intro l
  induction l with
  | nil => intro h; exact absurd rfl h
  | cons x rest ih =>
      intro _ hsort hdisj hcnt hnd hreq
      cases rest with
      | nil => exact ⟨[], x, rfl⟩
      | cons y ys =>
          have hxne : attrs x ≠ [] := by
            intro hx0
            have hy0 : attrs y = [] := by
              have := (List.pairwise_cons.mp hsort).1 y (List.mem_cons_self y ys)
              rw [asize, asize, hx0] at this
              simpa using List.eq_nil_of_length_eq_zero (Nat.le_zero.mp this)
            have hxe : ((attrs x).isEmpty) = true := by rw [hx0]; rfl
            have hye : ((attrs y).isEmpty) = true := by rw [hy0]; rfl
            simp only [List.filter_cons, hxe, hye, if_true, List.length_cons] at hcnt
            omega
          have hd := (List.pairwise_cons.mp hdisj).1
          obtain ⟨fl, hfl, hfldef⟩ :=
            hreq x (List.mem_cons_self x (y :: ys)) hxne
          have hflmem : fl.fname ∈ attrs x :=
            List.mem_dedup.mpr (List.mem_map_of_mem Field.fname hfl)
          have hfluniq : fl.fname ∈ uniqFields x (y :: ys) :=
            mem_uniqFields.mpr ⟨hflmem, fun s hs => hd s hs fl.fname hflmem⟩
          have hemp : ¬((uniqFields x (y :: ys)).isEmpty = true) := by
            intro h
            rw [List.isEmpty_iff.mp h] at hfluniq
            exact List.not_mem_nil _ hfluniq
          have hpred : (!(fieldHasDefault x fl.fname)) = true := by
            rw [fieldHasDefault_of_mem (hnd x (List.mem_cons_self x (y :: ys))) hfl, hfldef]
            rfl
          have hsome : ((uniqFields x (y :: ys)).find?
              (fun a => !(fieldHasDefault x a))).isSome = true := by
            rw [List.find?_isSome]
            exact ⟨fl.fname, hfluniq, hpred⟩
          obtain ⟨a, hfind⟩ := Option.isSome_iff_exists.mp hsome
          have hcnt' : ((y :: ys).filter (fun s => (attrs s).isEmpty)).length ≤ 1 := by
            rw [List.filter_cons] at hcnt
            split at hcnt
            · rw [List.length_cons] at hcnt; omega
            · exact hcnt
          obtain ⟨tbl, fb, hbt⟩ := ih (by simp) (List.Pairwise.of_cons hsort)
            (List.Pairwise.of_cons hdisj) hcnt'
            (fun c hc => hnd c (List.mem_cons_of_mem x hc))
            (fun c hc => hreq c (List.mem_cons_of_mem x hc))
          refine ⟨(a, x) :: tbl, fb, ?_⟩
          rw [buildTable_cons, if_neg hemp, hfind, hbt]

/-- If, at some position of the walked list, the unique-attribute set is a
single attribute carrying a default, and every earlier position picks a
usable attribute, the walk fails with `noUniqueRequiredField` for the class
at that position. -/
theorem buildTable_error_at :
    ∀ (pre : List Schema) (S : Schema) (post : List Schema) (f : String),
      post ≠ [] →
      uniqFields S post = [f] →
      fieldHasDefault S f = true →
      (∀ pre1 Q post1, pre = pre1 ++ Q :: post1 →
        ((uniqFields Q (post1 ++ S :: post)).find?
          (fun a => !(fieldHasDefault Q a))).isSome = true) →
      buildTable (pre ++ S :: post) = .error (.noUniqueRequiredField S.sid) := by
  intro pre
  induction pre with
  | nil =>
      intro S post f hpost huniq hdef _
      cases post with
      | nil => exact absurd rfl hpost
      | cons y ys =>
          rw [List.nil_append, buildTable_cons, huniq]
          rw [if_neg (by simp)]
          have : List.find? (fun a => !(fieldHasDefault S a)) [f] = none := by
            rw [List.find?_cons_of_neg _ (by simp [hdef]), List.find?_nil]
          rw [this]
  | cons Q pre' ih =>
      intro S post f hpost huniq hdef hpre
      have hrest : pre' ++ S :: post ≠ [] := by simp
      rw [List.cons_append, buildTable_cons' Q (pre' ++ S :: post) hrest]
      obtain ⟨a, hfind⟩ := Option.isSome_iff_exists.mp (hpre [] Q pre' rfl)
      have hne : ¬((uniqFields Q (pre' ++ S :: post)).isEmpty = true) := by
        intro h
        have hm := List.mem_of_find?_eq_some hfind
        rw [List.isEmpty_iff.mp h] at hm
        exact List.not_mem_nil _ hm
      rw [if_neg hne, hfind,
        ih S post f hpost huniq hdef
          (fun pre1 Q1 post1 h1 => hpre (Q :: pre1) Q1 post1 (by rw [h1]; rfl))]

/-! ### Wrapper and resolver lemmas -/

theorem create_uniq_eq_buildTable {classes : List Schema}
    (h2 : 2 ≤ classes.length)
    (hone : (classes.filter (fun s => (attrs s).isEmpty)).length ≤ 1) :
    create_uniq_field_dis_func classes = buildTable (sortByLenDesc classes) := by
  rw [create_uniq_field_dis_func, if_neg (by omega), if_neg (by omega)]

/-- The structural resolver always answers on a map-shaped input. -/
theorem dis_func_map_ok (tbl : List (String × Schema)) (fb : Schema)
    (m : List (String × Val)) : ∃ s, dis_func tbl fb (.map m) = .ok s := by
  simp only [dis_func]
  cases tbl.find? (fun e => hasKey m e.1) with
  | none => exact ⟨fb, rfl⟩
  | some e => exact ⟨e.2, rfl⟩

/-- The structural resolver reads only key presence: two maps agreeing on
every key query resolve identically. -/
theorem dis_func_congr {tbl : List (String × Schema)} {fb : Schema}
    {m1 m2 : List (String × Val)} (h : ∀ k, hasKey m1 k = hasKey m2 k) :
    dis_func tbl fb (.map m1) = dis_func tbl fb (.map m2) := by
  simp only [dis_func]
  have he : (fun e : String × Schema => hasKey m1 e.1) = fun e => hasKey m2 e.1 := by
    funext e; exact h e.1
  rw [he]

theorem dictLookup_mem (l : List Schema) (k : String) (c : Schema)
    (h : dictLookup (namesToCl l) k = some c) : c ∈ l ∧ c.dname = k := by
  rw [dictLookup] at h
  cases hf : (namesToCl l).reverse.find? (fun e => e.1 == k) with
  | none => rw [hf] at h; exact Option.noConfusion h
  | some e =>
      rw [hf] at h
      injection h with h
      subst h
      have hp := List.find?_some hf
      have hm : e ∈ namesToCl l := List.mem_reverse.mp (List.mem_of_find?_eq_some hf)
      rw [namesToCl, List.mem_map] at hm
      obtain ⟨c0, hc0, rfl⟩ := hm
      exact ⟨hc0, beq_iff_eq.mp hp⟩

theorem dictLookup_isSome (l : List Schema) (c : Schema) (hc : c ∈ l) :
    ∃ e, dictLookup (namesToCl l) c.dname = some e := by
  have hs : ((namesToCl l).reverse.find? (fun e => e.1 == c.dname)).isSome = true := by
    rw [List.find?_isSome]
    exact ⟨(c.dname, c),
      List.mem_reverse.mpr (List.mem_map_of_mem (fun s => (s.dname, s)) hc), by simp⟩
  obtain ⟨e, he⟩ := Option.isSome_iff_exists.mp hs
  exact ⟨e.2, by rw [dictLookup, he]; rfl⟩

theorem dictLookup_eq_none (l : List Schema) (k : String)
    (h : ∀ c ∈ l, c.dname ≠ k) : dictLookup (namesToCl l) k = none := by
  have hf : (namesToCl l).reverse.find? (fun e => e.1 == k) = none := by
    rw [List.find?_eq_none]
    intro e he
    rw [List.mem_reverse, namesToCl, List.mem_map] at he
    obtain ⟨c0, hc0, rfl⟩ := he
    simp only [beq_eq_false_iff_ne, ne_eq, Bool.not_eq_true]
    exact h c0 hc0
  rw [dictLookup, hf]
  rfl

/-- The tag resolver on a map-shaped input either picks a class or reports
the missing discriminator; it never reports `notAMapping`. -/
theorem tag_map_cases (classes : List Schema) (fb : Schema) (type_name_key : String)
    (m : List (String × Val)) :
    (∃ s, tag_dis_func classes fb type_name_key (.map m) = .ok s) ∨
      tag_dis_func classes fb type_name_key (.map m) = .error .missingDiscriminator := by
  cases hf : m.find? (fun kv => kv.1 == type_name_key) with
  | none =>
      right
      simp only [tag_dis_func, hf]
  | some kv =>
      obtain ⟨k1, v⟩ := kv
      cases v with
      | str s =>
          left
          cases hd : dictLookup (namesToCl classes) s with
          | none => exact ⟨fb, by simp only [tag_dis_func, hf, hd]⟩
          | some c => exact ⟨c, by simp only [tag_dis_func, hf, hd]⟩
      | int n => left; exact ⟨fb, by simp only [tag_dis_func, hf]⟩

/-! ### Concrete schemas used by the claims -/

def DA : Schema := ⟨0, "A", [⟨"d", true⟩]⟩
def DB : Schema := ⟨1, "B", [⟨"e", true⟩]⟩
def WA : Schema := ⟨0, "A", [⟨"x", false⟩]⟩
def WB : Schema := ⟨1, "B", [⟨"y", false⟩]⟩
def FS : Schema := ⟨0, "S", [⟨"d", true⟩, ⟨"p", false⟩]⟩
def FT : Schema := ⟨1, "T", [⟨"p", false⟩]⟩
def EA : Schema := ⟨0, "A", [⟨"x", false⟩, ⟨"y", false⟩]⟩
def EB : Schema := ⟨1, "B", [⟨"d", true⟩]⟩
def Parent : Schema := ⟨0, "Parent", [⟨"p", false⟩]⟩
def Child : Schema := ⟨1, "Child", [⟨"p", false⟩, ⟨"c", false⟩]⟩
def TA : Schema := ⟨0, "A", []⟩
def TB : Schema := ⟨1, "B", []⟩

/-! ### Claims -/

/-- C1 counterexample: the schemas `A {d: defaulted}` and `B {e: defaulted}`
have pairwise-disjoint required field sets (both empty), yet building the
structural resolver does not succeed: it fails with
`noUniqueRequiredField`, refuting the claim that disjoint required fields
suffice for the build to succeed. -/
theorem c1_counterexample :
    List.Pairwise (fun a b => ∀ x ∈ requiredNames a, x ∉ requiredNames b) [DA, DB] ∧
    2 ≤ ([DA, DB] : List Schema).length ∧
    create_uniq_field_dis_func [DA, DB] = .error (.noUniqueRequiredField 0) := by
  refine ⟨by decide, by decide, by decide⟩

/-- C1 (amended): for at least 2 schemas whose full attribute-name sets
are pairwise disjoint, with at most one empty attribute set, duplicate-free
field names, and at least one non-defaulted field in every schema with a
nonempty attribute set, the structural build succeeds, and every mapping
whose key set is exactly a schema's attribute-name set resolves to that
schema. -/
theorem c1_struct_disjoint (classes : List Schema)
    (h2 : 2 ≤ classes.length)
    (hdisj : List.Pairwise (fun a b => ∀ x ∈ attrs a, x ∉ attrs b) classes)
    (hone : (classes.filter (fun s => (attrs s).isEmpty)).length ≤ 1)
    (hnd : ∀ c ∈ classes, (c.sfields.map Field.fname).Nodup)
    (hreq : ∀ c ∈ classes, attrs c ≠ [] → ∃ fl ∈ c.sfields, fl.hasDefault = false) :
    ∃ tbl fb, create_uniq_field_dis_func classes = .ok (tbl, fb) ∧
      ∀ c ∈ classes, ∀ m : List (String × Val),
        (∀ k, hasKey m k = memb k (attrs c)) →
          dis_func tbl fb (.map m) = .ok c := by
  have hperm := sortByLenDesc_perm classes
  have hsymm : ∀ {a b : Schema},
      (∀ x ∈ attrs a, x ∉ attrs b) → ∀ x ∈ attrs b, x ∉ attrs a :=
    fun hab x hx hxa => hab x hxa hx
  have hdisj' := (hperm.pairwise_iff hsymm).mpr hdisj
  have hone' : ((sortByLenDesc classes).filter (fun s => (attrs s).isEmpty)).length ≤ 1 := by
    rw [(hperm.filter _).length_eq]
    exact hone
  have hlen : (sortByLenDesc classes).length = classes.length := hperm.length_eq
  have hne : sortByLenDesc classes ≠ [] := by
    intro h0
    rw [h0] at hlen
    simp only [List.length_nil] at hlen
    omega
  obtain ⟨tbl, fb, hbt⟩ := buildTable_success (sortByLenDesc classes) hne
    (sortByLenDesc_pairwise classes) hdisj' hone'
    (fun c hc => hnd c (hperm.mem_iff.mp hc))
    (fun c hc => hreq c (hperm.mem_iff.mp hc))
  refine ⟨tbl, fb, ?_, ?_⟩
  · rw [create_uniq_eq_buildTable h2 hone, hbt]
  · intro c hc m hm
    exact buildTable_resolve_self _ tbl fb hbt c (hperm.mem_iff.mpr hc) m hm

/-- C1 witness: the amended claim instantiated at `A {x}` and `B {y}`. -/
theorem c1_witness :
    ∃ tbl fb, create_uniq_field_dis_func [WA, WB] = .ok (tbl, fb) ∧
      ∀ c ∈ [WA, WB], ∀ m : List (String × Val),
        (∀ k, hasKey m k = memb k (attrs c)) →
          dis_func tbl fb (.map m) = .ok c :=
  c1_struct_disjoint [WA, WB] (by decide) (by decide) (by decide) (by decide) (by decide)

/-- C2: with `Parent {p}` and `Child {p, c}`, in either input order, the
built structural resolver sends every mapping holding keys `p` and `c` to
`Child` and every mapping holding `p` but not `c` to `Parent`. -/
theorem c2_order_sensitivity (tbl tbl2 : List (String × Schema)) (fb fb2 : Schema)
    (h1 : create_uniq_field_dis_func [Parent, Child] = .ok (tbl, fb))
    (h2 : create_uniq_field_dis_func [Child, Parent] = .ok (tbl2, fb2))
    (m : List (String × Val)) :
    (hasKey m "p" = true → hasKey m "c" = true →
      dis_func tbl fb (.map m) = .ok Child ∧ dis_func tbl2 fb2 (.map m) = .ok Child) ∧
    (hasKey m "p" = true → hasKey m "c" = false →
      dis_func tbl fb (.map m) = .ok Parent ∧ dis_func tbl2 fb2 (.map m) = .ok Parent) := by
  have e1 : create_uniq_field_dis_func [Parent, Child] = .ok ([("c", Child)], Parent) := by
    decide
  have e2 : create_uniq_field_dis_func [Child, Parent] = .ok ([("c", Child)], Parent) := by
    decide
  rw [e1] at h1
  injection h1 with h1
  injection h1 with h1a h1b
  subst h1a; subst h1b
  rw [e2] at h2
  injection h2 with h2
  injection h2 with h2a h2b
  subst h2a; subst h2b
  constructor
  · intro _ hc
    constructor <;>
      (simp only [dis_func]
       rw [List.find?_cons_of_pos _ (by simpa using hc)])
  · intro _ hc
    constructor <;>
      (simp only [dis_func]
       rw [List.find?_cons_of_neg _ (by simpa using hc), List.find?_nil])

/-- C2 witness: the two concrete mappings of the spec. -/
theorem c2_witness :
    dis_func [("c", Child)] Parent (.map [("p", Val.int 1), ("c", Val.int 2)]) = .ok Child ∧
    dis_func [("c", Child)] Parent (.map [("p", Val.int 1)]) = .ok Parent :=
  ⟨((c2_order_sensitivity [("c", Child)] [("c", Child)] Parent Parent (by decide) (by decide)
      [("p", Val.int 1), ("c", Val.int 2)]).1 (by decide) (by decide)).1,
   ((c2_order_sensitivity [("c", Child)] [("c", Child)] Parent Parent (by decide) (by decide)
      [("p", Val.int 1)]).2 (by decide) (by decide)).1⟩

/-- C3: the processing order of the structural builder is a permutation of
the input, sizes are non-increasing along it, and candidates of equal
attribute-set size keep their input order (filtering by any fixed size
returns the same subsequence before and after sorting). -/
theorem c3_sort_stable (l : List Schema) :
    List.Perm (sortByLenDesc l) l ∧
    List.Pairwise (fun a b => asize b ≤ asize a) (sortByLenDesc l) ∧
    ∀ k, (sortByLenDesc l).filter (fun s => asize s == k) =
      l.filter (fun s => asize s == k) := by
  refine ⟨sortByLenDesc_perm l, sortByLenDesc_pairwise l, ?_⟩
  intro k
  induction l with
  | nil => rfl
  | cons x xs ih =>
      rw [sortByLenDesc, filter_insertDesc, List.filter_cons, List.filter_cons, ih]

/-- C4: on a map holding the discriminator key, the tag-field resolver
returns the (identity of the) candidate whose display name the
discriminator value equals, and returns the first input schema, without
error, when the value matches no candidate name. -/
theorem c4_tag_resolution (classes : List Schema) (type_name_key : String)
    (r : Input → Except ResolveError Schema)
    (hcr : create_type_name_field_dis_func classes type_name_key = some r)
    (m : List (String × Val)) (kv : String × Val)
    (hfind : m.find? (fun p => p.1 == type_name_key) = some kv) :
    ((∃ c ∈ classes, kv.2 = Val.str c.dname) →
       ∃ c ∈ classes, kv.2 = Val.str c.dname ∧ r (.map m) = .ok c) ∧
    ((∀ c ∈ classes, kv.2 ≠ Val.str c.dname) →
       ∃ c0 cs, classes = c0 :: cs ∧ r (.map m) = .ok c0) := by
  cases classes with
  | nil => exact Option.noConfusion hcr
  | cons c0 cs =>
      injection hcr with hcr
      subst hcr
      constructor
      · rintro ⟨c, hc, hv⟩
        obtain ⟨e, he⟩ := dictLookup_isSome (c0 :: cs) c hc
        obtain ⟨hemem, hename⟩ := dictLookup_mem (c0 :: cs) c.dname e he
        refine ⟨e, hemem, ?_, ?_⟩
        · rw [hename]; exact hv
        · simp only [tag_dis_func, hfind, hv, he]
      · intro hnone
        refine ⟨c0, cs, rfl, ?_⟩
        cases hv : kv.2 with
        | str s =>
            have hd : dictLookup (namesToCl (c0 :: cs)) s = none := by
              apply dictLookup_eq_none
              intro c hcm heq
              exact hnone c hcm (by rw [hv, heq])
            simp only [tag_dis_func, hfind, hv, hd]
        | int n => simp only [tag_dis_func, hfind, hv]

/-- C4 witness: names `A`, `B`, discriminator value `"B"` selects `B`. -/
theorem c4_witness :
    ∃ c ∈ [TA, TB], (("type", Val.str "B") : String × Val).2 = Val.str c.dname ∧
      tag_dis_func [TA, TB] TA "type" (.map [("type", Val.str "B")]) = .ok c :=
  (c4_tag_resolution [TA, TB] "type" (tag_dis_func [TA, TB] TA "type") rfl
      [("type", Val.str "B")] ("type", Val.str "B") (by decide)).1 (by decide)

/-- C5 counterexample: with `A {x, y}` (required) and `B {d: defaulted}`,
schema `B`'s only unique field (`d`, its attribute names minus the union of
those after it in specificity order) carries a default, yet the build
succeeds instead of failing with `noUniqueRequiredField`: the final schema
in sorted order becomes the fallback with no default check. -/
theorem c5_counterexample :
    uniqFields EB [] = ["d"] ∧ fieldHasDefault EB "d" = true ∧
    2 ≤ ([EA, EB] : List Schema).length ∧
    sortByLenDesc [EA, EB] = [EA, EB] ∧
    create_uniq_field_dis_func [EA, EB] = .ok ([("x", EA)], EB) := by
  refine ⟨by decide, by decide, by decide, by decide, by decide⟩

/-- C5 (amended): for an input with at most one empty attribute set, if a
schema other than the last of the sorted processing order has exactly one
unique field and that field carries a default, and every schema processed
before it finds a unique field without a default, the build fails with
`noUniqueRequiredField` for that schema. -/
theorem c5_default_unique_fails (classes pre post : List Schema) (S : Schema) (f : String)
    (hone : (classes.filter (fun s => (attrs s).isEmpty)).length ≤ 1)
    (hdec : sortByLenDesc classes = pre ++ S :: post)
    (hpost : post ≠ [])
    (huniq : uniqFields S post = [f])
    (hdef : fieldHasDefault S f = true)
    (hpre : ∀ pre1 Q post1, pre = pre1 ++ Q :: post1 →
      ((uniqFields Q (post1 ++ S :: post)).find?
        (fun a => !(fieldHasDefault Q a))).isSome = true) :
    create_uniq_field_dis_func classes = .error (.noUniqueRequiredField S.sid) := by
  have hlen := (sortByLenDesc_perm classes).length_eq
  rw [hdec] at hlen
  have h2 : 2 ≤ classes.length := by
    rw [List.length_append, List.length_cons] at hlen
    cases post with
    | nil => exact absurd rfl hpost
    | cons y ys =>
        rw [List.length_cons] at hlen
        omega
  rw [create_uniq_eq_buildTable h2 hone, hdec]
  exact buildTable_error_at pre S post f hpost huniq hdef hpre

/-- C5 witness: `S {d: defaulted, p}` before `T {p}`: `S`'s only unique
field `d` is defaulted and `S` is not last, so the build fails. -/
theorem c5_witness :
    create_uniq_field_dis_func [FS, FT] = .error (.noUniqueRequiredField 0) :=
  c5_default_unique_fails [FS, FT] [] [FT] FS "d" (by decide) (by decide) (by decide)
    (by decide) (by decide)
    (by
      intro pre1 Q post1 h
      obtain ⟨_, h2⟩ := List.append_eq_nil.mp h.symm
      exact absurd h2 (List.cons_ne_nil Q post1))

/-- C6: the structural build fails with `multipleEmptySchemas` exactly when
more than one input schema has an empty attribute-name set. -/
theorem c6_multiple_empty (classes : List Schema) :
    create_uniq_field_dis_func classes = .error .multipleEmptySchemas ↔
      1 < (classes.filter (fun s => (attrs s).isEmpty)).length := by
  constructor
  · intro h
    by_contra hle
    rw [create_uniq_field_dis_func] at h
    by_cases hl : classes.length < 2
    · rw [if_pos hl] at h
      injection h with h
      exact BuildError.noConfusion h
    · rw [if_neg hl, if_neg hle] at h
      exact buildTable_ne_multipleEmpty _ h
  · intro h
    have hl : ¬(classes.length < 2) := by
      have := List.length_filter_le (fun s => (attrs s).isEmpty) classes
      omega
    rw [create_uniq_field_dis_func, if_neg hl, if_pos h]

/-- C7: a successfully built tag-field resolver applied to a map-shaped
input lacking the discriminator key fails with `missingDiscriminator`; no
fallback is consulted. -/
theorem c7_missing_discriminator (classes : List Schema) (type_name_key : String)
    (r : Input → Except ResolveError Schema)
    (hcr : create_type_name_field_dis_func classes type_name_key = some r)
    (m : List (String × Val)) (hm : ∀ kv ∈ m, kv.1 ≠ type_name_key) :
    r (.map m) = .error .missingDiscriminator := by
  cases classes with
  | nil => exact Option.noConfusion hcr
  | cons c0 cs =>
      injection hcr with hcr
      subst hcr
      have hf : m.find? (fun kv => kv.1 == type_name_key) = none := by
        rw [List.find?_eq_none]
        intro kv hkv
        simp only [beq_eq_false_iff_ne, ne_eq, Bool.not_eq_true]
        exact hm kv hkv
      simp only [tag_dis_func, hf]

/-- C7 witness: a map without the `type` key. -/
theorem c7_witness :
    tag_dis_func [TA, TB] TA "type" (.map [("other", Val.int 5)]) =
      .error .missingDiscriminator :=
  c7_missing_discriminator [TA, TB] "type" (tag_dis_func [TA, TB] TA "type") rfl
    [("other", Val.int 5)] (by decide)

/-- C8: both successfully built resolvers fail with `notAMapping` on every
non-map input, and never report it on a map-shaped input. -/
theorem c8_not_a_mapping (classes : List Schema) (tbl : List (String × Schema)) (fb : Schema)
    (classes2 : List Schema) (type_name_key : String) (r : Input → Except ResolveError Schema)
    (h1 : create_uniq_field_dis_func classes = .ok (tbl, fb))
    (h2 : create_type_name_field_dis_func classes2 type_name_key = some r) :
    (∀ x, dis_func tbl fb (.notMap x) = .error .notAMapping) ∧
    (∀ m, dis_func tbl fb (.map m) ≠ .error .notAMapping) ∧
    (∀ x, r (.notMap x) = .error .notAMapping) ∧
    (∀ m, r (.map m) ≠ .error .notAMapping) := by
  refine ⟨fun x => rfl, ?_, ?_, ?_⟩
  · intro m h
    obtain ⟨s, hs⟩ := dis_func_map_ok tbl fb m
    rw [hs] at h
    exact Except.noConfusion h
  · cases classes2 with
    | nil => exact Option.noConfusion h2
    | cons c0 cs =>
        injection h2 with h2
        subst h2
        intro x
        rfl
  · cases classes2 with
    | nil => exact Option.noConfusion h2
    | cons c0 cs =>
        injection h2 with h2
        subst h2
        intro m h
        rcases tag_map_cases (c0 :: cs) c0 type_name_key m with ⟨s, hs⟩ | hs
        · rw [hs] at h; exact Except.noConfusion h
        · rw [hs] at h
          injection h with h
          exact ResolveError.noConfusion h

/-- C8 witness: both resolvers at a non-map input and at an empty map. -/
theorem c8_witness :
    dis_func [("c", Child)] Parent (.notMap 0) = .error .notAMapping ∧
    dis_func [("c", Child)] Parent (.map []) ≠ .error .notAMapping ∧
    tag_dis_func [TA, TB] TA "type" (.notMap 0) = .error .notAMapping ∧
    tag_dis_func [TA, TB] TA "type" (.map []) ≠ .error .notAMapping := by
  obtain ⟨a, b, c, d⟩ := c8_not_a_mapping [Parent, Child] [("c", Child)] Parent [TA, TB]
    "type" (tag_dis_func [TA, TB] TA "type") (by decide) rfl
  exact ⟨a 0, b [], c 0, d []⟩

/-- C9: whenever the structural build succeeds, the fallback is the last
schema of the sorted order, and the resolver answers with some schema on
every map-shaped input. -/
theorem c9_fallback_total (classes : List Schema) (tbl : List (String × Schema)) (fb : Schema)
    (h : create_uniq_field_dis_func classes = .ok (tbl, fb)) :
    (sortByLenDesc classes).getLast? = some fb ∧
    ∀ m, ∃ s, dis_func tbl fb (.map m) = .ok s := by
  refine ⟨?_, fun m => dis_func_map_ok tbl fb m⟩
  rw [create_uniq_field_dis_func] at h
  by_cases hl : classes.length < 2
  · rw [if_pos hl] at h; exact Except.noConfusion h
  · rw [if_neg hl] at h
    by_cases he : 1 < (classes.filter (fun s => (attrs s).isEmpty)).length
    · rw [if_pos he] at h; exact Except.noConfusion h
    · rw [if_neg he] at h
      exact buildTable_fallback _ tbl fb h

/-- C9 witness: the `Parent`/`Child` build. -/
theorem c9_witness :
    (sortByLenDesc [Parent, Child]).getLast? = some Parent ∧
    ∀ m, ∃ s, dis_func [("c", Child)] Parent (.map m) = .ok s :=
  c9_fallback_total [Parent, Child] [("c", Child)] Parent (by decide)

/-- C10: the structural resolver's answer depends only on which keys are
present: two map-shaped inputs agreeing on every key query resolve to the
same schema. -/
theorem c10_key_only (classes : List Schema) (tbl : List (String × Schema)) (fb : Schema)
    (h : create_uniq_field_dis_func classes = .ok (tbl, fb))
    (m1 m2 : List (String × Val)) (hk : ∀ k, hasKey m1 k = hasKey m2 k) :
    dis_func tbl fb (.map m1) = dis_func tbl fb (.map m2) :=
  dis_func_congr hk

/-- C10 witness: same key, different values. -/
theorem c10_witness :
    dis_func [("c", Child)] Parent (.map [("p", Val.int 1)]) =
      dis_func [("c", Child)] Parent (.map [("p", Val.str "v")]) :=
  c10_key_only [Parent, Child] [("c", Child)] Parent (by decide)
    [("p", Val.int 1)] [("p", Val.str "v")] (fun k => rfl)

end Cattrs

